import Mathlib

/-!
Verification of the 32-bit normal-vector codec in `src/pack.cpp`.

Modelling conventions:
* Every finite IEEE-754 single-precision float is a rational number, so the
  float-valued scalars of the source are modelled as exact rationals `ℚ`;
  the decimal literals of the source (`0.5f`, `0.005f`, ...) denote the
  corresponding exact rationals.
* `uint32_t` values are modelled as `ℕ` together with reduction `% 2 ^ 32`
  at the points where the source performs 32-bit arithmetic.
* `glm::round` is `std::round`, which rounds half away from zero; the model
  `roundAway` implements exactly that rule on `ℚ`.
* `glm::sqrt` applied to a negative argument yields NaN.  The model makes
  this explicit: the `z` component produced by `unpack` has type `Option ℝ`,
  and it is `none` exactly when the C++ code computes the square root of a
  negative radicand (i.e. produces NaN); any float comparison with NaN is
  false, which is reflected in the model of `vector_equals`.
-/

namespace NormalPack

/-- A 3-component vector of (finite) floats, modelled as exact rationals.
Corresponds to `glm::vec3` as used by `pack` in src/pack.cpp. -/
structure Vec3 where
  x : ℚ
  y : ℚ
  z : ℚ
deriving DecidableEq

/-- The result of `unpack`: the x and y components are exact rationals, and
the z component is `none` when the source computes `glm::sqrt` of a negative
number (IEEE NaN), otherwise `some` of the real value. -/
structure UVec3 where
  x : ℚ
  y : ℚ
  z : Option ℝ

/-- Source: `float_eq` in src/pack.cpp — `glm::abs(x - y) < 0.005f`. -/
def float_eq (x y : ℚ) : Prop := |x - y| < 5 / 1000

/-- Real-valued version of `float_eq`, used to compare against the
(sqrt-valued, hence real) z component produced by `unpack`. -/
def float_eqR (x y : ℝ) : Prop := |x - y| < 5 / 1000

/-- Source: `map_ufnorm` in src/pack.cpp — `(x + 1.0f) * 0.5f`. -/
def map_ufnorm (x : ℚ) : ℚ := (x + 1) * (1 / 2)

/-- Source: `map_sfnorm` in src/pack.cpp — `x * 2.0 - 1.0f`. -/
def map_sfnorm (x : ℚ) : ℚ := x * 2 - 1

/-- Rounding half away from zero: the semantics of `glm::round`
(= `std::round`).  Mathlib's `round` rounds half up, which agrees with
round-half-away-from-zero on nonnegative arguments. -/
def roundAway (q : ℚ) : ℤ := if q < 0 then -round (-q) else round q

/-- Source: `map_ftou15` in src/pack.cpp — `(uint32_t)(glm::round(x * s)) & 0x0000FFFF`
with `s = 2^15 - 1 = 32767`.  The cast of a nonnegative in-range float to
`uint32_t` truncates to the integer value; `Int.toNat` models it. -/
def map_ftou15 (x : ℚ) : ℕ := (roundAway (x * 32767)).toNat &&& 0xFFFF

/-- Source: `map_ftou16` in src/pack.cpp — `(uint32_t)(glm::round(x * s))`
with `s = 2^16 - 1 = 65535`. -/
def map_ftou16 (x : ℚ) : ℕ := (roundAway (x * 65535)).toNat

/-- Source: `pack` in src/pack.cpp.  The final `% 2 ^ 32` models the fact
that the assembled word is a `uint32_t`. -/
def pack (n : Vec3) : ℕ :=
  let ufx := map_ufnorm n.x
  let ufy := map_ufnorm n.y
  let ux := map_ftou16 ufx
  let uy := map_ftou15 ufy
  let ua : ℕ := if n.z < 0 then 1 else 0
  ((ux <<< 16) ||| (uy <<< 1) ||| ua) % 2 ^ 32

/-- The argument of `glm::sqrt` in `unpack` (src/pack.cpp line 76):
`1.0f - (fx*fx + fy*fy)`, with `fx`, `fy` extracted from `p` exactly as in
the source.  Kept as a separate (computable) definition so that claims about
NaN can be stated as sign conditions on this rational. -/
def radicand (p : ℕ) : ℚ :=
  let x := p >>> 16
  let y := (p &&& 0xFFFF) >>> 1
  let fx := map_sfnorm ((x : ℚ) / 65535)
  let fy := map_sfnorm ((y : ℚ) / 32767)
  1 - (fx * fx + fy * fy)

/-- Source: `unpack` in src/pack.cpp.  The z component is `none` exactly when
the source computes `glm::sqrt` of a negative number, i.e. yields NaN. -/
noncomputable def unpack (p : ℕ) : UVec3 :=
  let x := p >>> 16
  let y := (p &&& 0xFFFF) >>> 1
  let a := p &&& 0x01
  let fx := map_sfnorm ((x : ℚ) / 65535)
  let fy := map_sfnorm ((y : ℚ) / 32767)
  let fa : ℚ := if a = 1 then -1 else 1
  { x := fx
    y := fy
    z := if radicand p < 0 then none else some (Real.sqrt (radicand p) * fa) }

/-- Source: `vector_equals` in src/pack.cpp — componentwise `float_eq`.
The z component of the unpacked vector may be NaN (`none`); every IEEE
comparison involving NaN is false, hence the `False` branch. -/
def vector_equals (v : Vec3) (u : UVec3) : Prop :=
  float_eq v.x u.x ∧ float_eq v.y u.y ∧
    (u.z.elim False fun r => float_eqR (v.z : ℝ) r)

/-- On nonnegative arguments, round-half-away-from-zero agrees with
Mathlib's round-half-up. -/
theorem roundAway_of_nonneg {q : ℚ} (h : 0 ≤ q) : roundAway q = round q :=
  if_neg (not_lt.2 h)

/-- Evaluation form of `roundAway` on nonnegative arguments. -/
theorem roundAway_eval {q : ℚ} (h : 0 ≤ q) : roundAway q = ⌊q + 1 / 2⌋ := by
  rw [roundAway_of_nonneg h, round_eq]

/-- Masking with `0xFFFF` is the identity on values below `2 ^ 16`. -/
theorem and_ffff_eq {n : ℕ} (h : n < 65536) : n &&& 0xFFFF = n := by
  have h2 : (0xFFFF : ℕ) = 2 ^ 16 - 1 := by norm_num
  rw [h2, Nat.and_pow_two_sub_one_eq_mod, Nat.mod_eq_of_lt h]

/-- C5: the integer quantizers satisfy their exact endpoint contracts:
`floatToU15(0) = 0`, `floatToU15(1) = 32767`, `floatToU16(0) = 0`,
`floatToU16(1) = 65535`. -/
theorem quantizer_endpoint_contracts :
    map_ftou15 0 = 0 ∧ map_ftou15 1 = 32767 ∧
    map_ftou16 0 = 0 ∧ map_ftou16 1 = 65535 := by
  refine ⟨?_, ?_, ?_, ?_⟩
  · rw [map_ftou15, roundAway_eval (by norm_num)]
    norm_num
  · rw [map_ftou15, roundAway_eval (by norm_num)]
    norm_num [and_ffff_eq]
    rfl
  · rw [map_ftou16, roundAway_eval (by norm_num)]
    norm_num
  · rw [map_ftou16, roundAway_eval (by norm_num)]
    norm_num
    rfl

/-- C6: the range mappers satisfy their exact endpoint contracts:
`toUnsigned01(-1) = 0`, `toUnsigned01(0) = 0.5`, `toUnsigned01(1) = 1`,
`toSigned11(0) = -1`, `toSigned11(0.5) = 0`, `toSigned11(1) = 1`. -/
theorem mapper_endpoint_contracts :
    map_ufnorm (-1) = 0 ∧ map_ufnorm 0 = 1 / 2 ∧ map_ufnorm 1 = 1 ∧
    map_sfnorm 0 = -1 ∧ map_sfnorm (1 / 2) = 0 ∧ map_sfnorm 1 = 1 := by
  refine ⟨?_, ?_, ?_, ?_, ?_, ?_⟩ <;> norm_num [map_ufnorm, map_sfnorm]

/-- C2 (code bug): the claim says the radicand is clamped so that `unpack`
never produces NaN, but the source has no clamp: at the packed input
`p = 0` the extracted components are `fx = fy = -1`, the radicand is
`1 - (1 + 1) = -1 < 0`, and `glm::sqrt(-1)` is NaN (modelled as `none`). -/
theorem unpack_zero_yields_nan : radicand 0 = -1 ∧ (unpack 0).z = none := by
  have hrad : radicand 0 = -1 := by
    rw [radicand]
    norm_num [map_sfnorm]
  refine ⟨hrad, ?_⟩
  show (if radicand 0 < 0 then none else _) = none
  rw [if_pos (by rw [hrad]; norm_num)]

/-- Bitwise-or of disjoint bit fields is addition (shift form): when `b` fits
in the low `n` bits, `a <<< n ||| b = a <<< n + b`.  This justifies reading
the `|`-assembled word of `pack` arithmetically. -/
theorem shiftLeft_lor_eq_add : ∀ (n : ℕ) {b : ℕ}, b < 2 ^ n → ∀ a : ℕ, (a <<< n) ||| b = a <<< n + b := by
  intro n
  induction n with
  | zero =>
    intro b hb a
    have hb0 : b = 0 := by omega
    subst hb0
    simp
  | succ n ih =>
    intro b hb a
    have hb2 : b.div2 < 2 ^ n := by
      rw [Nat.div2_val]
      rw [pow_succ] at hb
      omega
    have h1 : a <<< (n + 1) = Nat.bit false (a <<< n) := by
      rw [Nat.bit_val, Nat.shiftLeft_succ]
      simp
    have hdec : b = Nat.bit b.bodd b.div2 := (Nat.bit_decomp b).symm
    rw [hdec, h1, Nat.lor_bit, ih hb2, Nat.bit_val, Nat.bit_val, Nat.bit_val]
    cases b.bodd <;> simp <;> omega

/-- Bitwise-or of disjoint bit fields is addition (multiplication form). -/
theorem mul_pow_lor_eq_add {a b : ℕ} (n : ℕ) (hb : b < 2 ^ n) :
    a * 2 ^ n ||| b = a * 2 ^ n + b := by
  have h := shiftLeft_lor_eq_add n hb a
  rwa [Nat.shiftLeft_eq] at h

/-- The rounded value of a nonnegative rational is nonnegative. -/
theorem roundAway_nonneg {q : ℚ} (h : 0 ≤ q) : 0 ≤ roundAway q := by
  rw [roundAway_eval h]
  exact Int.le_floor.2 (by push_cast; linarith)

/-- For in-domain input, the 16-bit quantizer value is at most `65535`. -/
theorem quant16_le {x : ℚ} (h0 : 0 ≤ x) (h1 : x ≤ 1) :
    (roundAway (x * 65535)).toNat ≤ 65535 := by
  rw [roundAway_eval (mul_nonneg h0 (by norm_num)), Int.toNat_le]
  calc ⌊x * 65535 + 1 / 2⌋ ≤ ⌊(65535 : ℚ) + 1 / 2⌋ := Int.floor_le_floor (by nlinarith)
    _ = 65535 := by norm_num

/-- For in-domain input, the 15-bit quantizer value (before the mask) is at
most `32767`. -/
theorem quant15_le {x : ℚ} (h0 : 0 ≤ x) (h1 : x ≤ 1) :
    (roundAway (x * 32767)).toNat ≤ 32767 := by
  rw [roundAway_eval (mul_nonneg h0 (by norm_num)), Int.toNat_le]
  calc ⌊x * 32767 + 1 / 2⌋ ≤ ⌊(32767 : ℚ) + 1 / 2⌋ := Int.floor_le_floor (by nlinarith)
    _ = 32767 := by norm_num

/-- For in-domain input, the defensive `& 0xFFFF` mask in `map_ftou15` is
the identity. -/
theorem map_ftou15_eq_toNat {x : ℚ} (h0 : 0 ≤ x) (h1 : x ≤ 1) :
    map_ftou15 x = (roundAway (x * 32767)).toNat :=
  and_ffff_eq (lt_of_le_of_lt (quant15_le h0 h1) (by norm_num))

/-- For in-domain input, the 15-bit quantizer output is at most `32767`. -/
theorem map_ftou15_le {x : ℚ} (h0 : 0 ≤ x) (h1 : x ≤ 1) : map_ftou15 x ≤ 32767 := by
  rw [map_ftou15_eq_toNat h0 h1]
  exact quant15_le h0 h1

/-- For `x ∈ [-1, 1]`, `map_ufnorm x ∈ [0, 1]`. -/
theorem map_ufnorm_mem {x : ℚ} (h : |x| ≤ 1) :
    0 ≤ map_ufnorm x ∧ map_ufnorm x ≤ 1 := by
  rw [abs_le] at h
  rw [map_ufnorm]
  constructor <;> linarith [h.1, h.2]

/-- C7: for in-domain input `x ∈ [0, 1]`, `floatToU16(x)` fits in 16 bits
and `floatToU15(x)` fits in 15 bits, so the packed bit fields cannot
overflow into adjacent bits. -/
theorem quantizers_fit_bit_widths (x : ℚ) (h0 : 0 ≤ x) (h1 : x ≤ 1) :
    map_ftou16 x ≤ 65535 ∧ map_ftou15 x ≤ 32767 :=
  ⟨quant16_le h0 h1, map_ftou15_le h0 h1⟩

/-- Witness for C7 at the concrete in-domain input `x = 1/2`. -/
theorem quantizers_fit_bit_widths_witness :
    (0 : ℚ) ≤ 1 / 2 ∧ (1 : ℚ) / 2 ≤ 1 ∧
    (map_ftou16 (1 / 2) ≤ 65535 ∧ map_ftou15 (1 / 2) ≤ 32767) :=
  ⟨by norm_num, by norm_num, quantizers_fit_bit_widths (1 / 2) (by norm_num) (by norm_num)⟩

/-- Arithmetic normal form of `pack` for in-domain input: the three fields
are assembled without any wraparound or overlap. -/
theorem pack_eq_arith (v : Vec3) (hx : |v.x| ≤ 1) (hy : |v.y| ≤ 1) :
    pack v = map_ftou16 (map_ufnorm v.x) * 65536 + map_ftou15 (map_ufnorm v.y) * 2 +
      (if v.z < 0 then 1 else 0) := by
  obtain ⟨hux0, hux1⟩ := map_ufnorm_mem hx
  obtain ⟨huy0, huy1⟩ := map_ufnorm_mem hy
  have hux : map_ftou16 (map_ufnorm v.x) ≤ 65535 := quant16_le hux0 hux1
  have huy : map_ftou15 (map_ufnorm v.y) ≤ 32767 := map_ftou15_le huy0 huy1
  have hua : (if v.z < 0 then 1 else 0 : ℕ) ≤ 1 := by split <;> norm_num
  rw [pack]
  show (map_ftou16 (map_ufnorm v.x) <<< 16 ||| map_ftou15 (map_ufnorm v.y) <<< 1 |||
      (if v.z < 0 then 1 else 0)) % 2 ^ 32 = _
  rw [Nat.shiftLeft_eq, Nat.shiftLeft_eq]
  rw [mul_pow_lor_eq_add 16 (show map_ftou15 (map_ufnorm v.y) * 2 ^ 1 < 2 ^ 16 by omega)]
  have hsplit : map_ftou16 (map_ufnorm v.x) * 2 ^ 16 + map_ftou15 (map_ufnorm v.y) * 2 ^ 1 =
      (map_ftou16 (map_ufnorm v.x) * 2 ^ 15 + map_ftou15 (map_ufnorm v.y)) * 2 ^ 1 := by
    ring
  rw [hsplit, mul_pow_lor_eq_add 1 (show (if v.z < 0 then 1 else 0 : ℕ) < 2 ^ 1 by omega)]
  rw [Nat.mod_eq_of_lt (by omega)]
  ring

/-- C3: for every input vector in the codec's domain (components in
`[-1, 1]`, which includes all unit vectors), `pack` assembles the word with
bits [31:16] = 16-bit quantized x, bits [15:1] = 15-bit quantized y, and
bit [0] = 1 exactly when `v.z < 0`. -/
theorem pack_bit_layout (v : Vec3) (hx : |v.x| ≤ 1) (hy : |v.y| ≤ 1) :
    pack v / 65536 = map_ftou16 (map_ufnorm v.x) ∧
    pack v % 65536 / 2 = map_ftou15 (map_ufnorm v.y) ∧
    pack v % 2 = (if v.z < 0 then 1 else 0) := by
  obtain ⟨hux0, hux1⟩ := map_ufnorm_mem hx
  obtain ⟨huy0, huy1⟩ := map_ufnorm_mem hy
  have hux : map_ftou16 (map_ufnorm v.x) ≤ 65535 := quant16_le hux0 hux1
  have huy : map_ftou15 (map_ufnorm v.y) ≤ 32767 := map_ftou15_le huy0 huy1
  have hua : (if v.z < 0 then 1 else 0 : ℕ) ≤ 1 := by split <;> norm_num
  rw [pack_eq_arith v hx hy]
  refine ⟨?_, ?_, ?_⟩ <;> omega

/-- Witness for C3 at the concrete unit vector `(1, 0, 0)`. -/
theorem pack_bit_layout_witness :
    |(1 : ℚ)| ≤ 1 ∧ |(0 : ℚ)| ≤ 1 ∧
    (pack ⟨1, 0, 0⟩ / 65536 = map_ftou16 (map_ufnorm 1) ∧
     pack ⟨1, 0, 0⟩ % 65536 / 2 = map_ftou15 (map_ufnorm 0) ∧
     pack ⟨1, 0, 0⟩ % 2 = (if (0 : ℚ) < 0 then 1 else 0)) :=
  ⟨by norm_num, by norm_num, pack_bit_layout ⟨1, 0, 0⟩ (by norm_num) (by norm_num)⟩

/-- C9: `pack` and `unpack` are deterministic — equal inputs give equal
outputs.  In the model both are pure functions, so this is congruence. -/
theorem pack_unpack_deterministic (v w : Vec3) (p q : ℕ) (hvw : v = w) (hpq : p = q) :
    pack v = pack w ∧ unpack p = unpack q := by
  subst hvw
  subst hpq
  exact ⟨rfl, rfl⟩

/-- Witness for C9 at concrete inputs. -/
theorem pack_unpack_deterministic_witness :
    pack ⟨1, 0, 0⟩ = pack ⟨1, 0, 0⟩ ∧ unpack 5 = unpack 5 :=
  pack_unpack_deterministic ⟨1, 0, 0⟩ ⟨1, 0, 0⟩ 5 5 rfl rfl

/-- For `q ∈ [0, 1]`, `map_sfnorm q ∈ [-1, 1]`. -/
theorem map_sfnorm_mem {q : ℚ} (h0 : 0 ≤ q) (h1 : q ≤ 1) :
    -1 ≤ map_sfnorm q ∧ map_sfnorm q ≤ 1 := by
  rw [map_sfnorm]
  constructor <;> linarith

/-- C10: for every 32-bit input, the x and y components produced by
`unpack` lie in `[-1, 1]`: the extracted fields are at most 65535 and
32767 respectively, so the division and the signed mapping stay in range. -/
theorem unpack_xy_within_unit_interval (p : ℕ) (hp : p < 2 ^ 32) :
    -1 ≤ (unpack p).x ∧ (unpack p).x ≤ 1 ∧ -1 ≤ (unpack p).y ∧ (unpack p).y ≤ 1 := by
  have hx : p >>> 16 ≤ 65535 := by
    rw [Nat.shiftRight_eq_div_pow]
    omega
  have hy : (p &&& 0xFFFF) >>> 1 ≤ 32767 := by
    have hm : p &&& 0xFFFF < 65536 := by
      rw [show (0xFFFF : ℕ) = 2 ^ 16 - 1 by norm_num, Nat.and_pow_two_sub_one_eq_mod]
      omega
    rw [Nat.shiftRight_eq_div_pow]
    omega
  have hxq : ((p >>> 16 : ℕ) : ℚ) ≤ 65535 := by exact_mod_cast hx
  have hyq : (((p &&& 0xFFFF) >>> 1 : ℕ) : ℚ) ≤ 32767 := by exact_mod_cast hy
  have hx01 : 0 ≤ ((p >>> 16 : ℕ) : ℚ) / 65535 ∧ ((p >>> 16 : ℕ) : ℚ) / 65535 ≤ 1 := by
    constructor
    · positivity
    · rw [div_le_one (by norm_num)]
      linarith
  have hy01 : 0 ≤ (((p &&& 0xFFFF) >>> 1 : ℕ) : ℚ) / 32767 ∧
      (((p &&& 0xFFFF) >>> 1 : ℕ) : ℚ) / 32767 ≤ 1 := by
    constructor
    · positivity
    · rw [div_le_one (by norm_num)]
      linarith
  obtain ⟨ha, hb⟩ := map_sfnorm_mem hx01.1 hx01.2
  obtain ⟨hc, hd⟩ := map_sfnorm_mem hy01.1 hy01.2
  exact ⟨ha, hb, hc, hd⟩

/-- Witness for C10 at the concrete 32-bit input `p = 0`. -/
theorem unpack_xy_within_unit_interval_witness :
    (0 : ℕ) < 2 ^ 32 ∧
    (-1 ≤ (unpack 0).x ∧ (unpack 0).x ≤ 1 ∧ -1 ≤ (unpack 0).y ∧ (unpack 0).y ≤ 1) :=
  ⟨by norm_num, unpack_xy_within_unit_interval 0 (by norm_num)⟩

/-- C4: `unpack` recovers x as `toSigned11((p >> 16) / 65535)`, y as
`toSigned11(((p & 0xFFFF) >> 1) / 32767)`, and — whenever the reconstructed
magnitude is a well-defined nonzero real, i.e. the radicand is positive —
the z component is negative exactly when bit 0 of `p` is 1, and
nonnegative when bit 0 is 0. -/
theorem unpack_field_formulas (p : ℕ) :
    (unpack p).x = map_sfnorm (((p >>> 16 : ℕ) : ℚ) / 65535) ∧
    (unpack p).y = map_sfnorm ((((p &&& 0xFFFF) >>> 1 : ℕ) : ℚ) / 32767) ∧
    (0 < radicand p →
      ∃ r : ℝ, (unpack p).z = some r ∧ (r < 0 ↔ p % 2 = 1) ∧ (p % 2 = 0 → 0 ≤ r)) := by
  refine ⟨rfl, rfl, ?_⟩
  intro hrad
  have hbit : p &&& 0x01 = p % 2 := by
    rw [show (0x01 : ℕ) = 2 ^ 1 - 1 by norm_num, Nat.and_pow_two_sub_one_eq_mod, pow_one]
  have hnneg : ¬ radicand p < 0 := not_lt.2 hrad.le
  have hsqrt : 0 < Real.sqrt (radicand p) := Real.sqrt_pos.2 (by exact_mod_cast hrad)
  refine ⟨Real.sqrt (radicand p) * ((if p &&& 0x01 = 1 then (-1 : ℚ) else 1) : ℚ), ?_, ?_, ?_⟩
  · show (if radicand p < 0 then none else some _) = some _
    rw [if_neg hnneg]
  · rw [hbit]
    by_cases h2 : p % 2 = 1
    · rw [if_pos h2]
      push_cast
      constructor
      · intro
        exact h2
      · intro
        nlinarith
    · rw [if_neg h2]
      push_cast
      constructor
      · intro hlt
        nlinarith
      · intro h
        exact absurd h h2
  · intro h0
    rw [hbit, if_neg (by omega)]
    push_cast
    nlinarith

/-- Witness for C4: the packed input `p = pack (0,0,1) = 2147516416` has a
positive radicand, so the existential branch is exercised. -/
theorem unpack_field_formulas_witness :
    (unpack 2147516416).x = map_sfnorm (((2147516416 >>> 16 : ℕ) : ℚ) / 65535) ∧
    (unpack 2147516416).y = map_sfnorm ((((2147516416 &&& 0xFFFF) >>> 1 : ℕ) : ℚ) / 32767) ∧
    (∃ r : ℝ, (unpack 2147516416).z = some r ∧ (r < 0 ↔ 2147516416 % 2 = 1) ∧
      (2147516416 % 2 = 0 → 0 ≤ r)) := by
  obtain ⟨h1, h2, h3⟩ := unpack_field_formulas 2147516416
  refine ⟨h1, h2, h3 ?_⟩
  rw [radicand]
  rw [show (2147516416 : ℕ) >>> 16 = 32768 by norm_num [Nat.shiftRight_eq_div_pow]]
  rw [show ((2147516416 : ℕ) &&& 0xFFFF) >>> 1 = 16384 by
    rw [show (0xFFFF : ℕ) = 2 ^ 16 - 1 by norm_num, Nat.and_pow_two_sub_one_eq_mod]
    norm_num [Nat.shiftRight_eq_div_pow]]
  simp only [map_sfnorm]
  norm_num

/-- Evaluation: `map_ufnorm 0 = 1/2`. -/
theorem map_ufnorm_zero_eval : map_ufnorm 0 = 1 / 2 := by
  rw [map_ufnorm]
  norm_num

/-- Evaluation: `map_ftou16 (1/2) = 32768` (rounding half away from zero at
`32767.5`). -/
theorem map_ftou16_half : map_ftou16 (1 / 2) = 32768 := by
  rw [map_ftou16, roundAway_eval (by norm_num)]
  norm_num
  rfl

/-- Evaluation: `map_ftou15 (1/2) = 16384` (rounding half away from zero at
`16383.5`). -/
theorem map_ftou15_half : map_ftou15 (1 / 2) = 16384 := by
  rw [map_ftou15, roundAway_eval (by norm_num)]
  norm_num [and_ffff_eq]
  rfl

/-- Arithmetic normal form of `pack` stated on explicit components. -/
theorem pack_mk_eq (x y z : ℚ) (hx : |x| ≤ 1) (hy : |y| ≤ 1) :
    pack ⟨x, y, z⟩ = map_ftou16 (map_ufnorm x) * 65536 + map_ftou15 (map_ufnorm y) * 2 +
      (if z < 0 then 1 else 0) :=
  pack_eq_arith ⟨x, y, z⟩ hx hy

/-- Evaluation: `pack (0,0,1) = 2147516416`. -/
theorem pack_up_eval : pack ⟨0, 0, 1⟩ = 2147516416 := by
  rw [pack_mk_eq 0 0 1 (by norm_num) (by norm_num),
    if_neg (show ¬((1 : ℚ) < 0) by norm_num),
    map_ufnorm_zero_eval, map_ftou16_half, map_ftou15_half]

/-- Evaluation: `pack (0,0,-1) = 2147516417`. -/
theorem pack_down_eval : pack ⟨0, 0, -1⟩ = 2147516417 := by
  rw [pack_mk_eq 0 0 (-1) (by norm_num) (by norm_num),
    if_pos (show (-1 : ℚ) < 0 by norm_num),
    map_ufnorm_zero_eval, map_ftou16_half, map_ftou15_half]

/-- C8: `pack` depends on z only through its sign — two inputs with equal
x and y whose z components are both negative or both nonnegative pack to
the same word; and `pack (0,0,1)`, `pack (0,0,-1)` differ only in bit 0. -/
theorem pack_depends_only_on_z_sign (v w : Vec3) (hx : v.x = w.x) (hy : v.y = w.y)
    (hz : (v.z < 0 ∧ w.z < 0) ∨ (0 ≤ v.z ∧ 0 ≤ w.z)) :
    pack v = pack w ∧
    pack ⟨0, 0, 1⟩ / 2 = pack ⟨0, 0, -1⟩ / 2 ∧
    pack ⟨0, 0, 1⟩ % 2 = 0 ∧ pack ⟨0, 0, -1⟩ % 2 = 1 := by
  refine ⟨?_, ?_, ?_, ?_⟩
  · rw [pack, pack, hx, hy]
    rcases hz with ⟨h1, h2⟩ | ⟨h1, h2⟩
    · rw [if_pos h1, if_pos h2]
    · rw [if_neg (not_lt.2 h1), if_neg (not_lt.2 h2)]
  · rw [pack_up_eval, pack_down_eval]
  · rw [pack_up_eval]
  · rw [pack_down_eval]

/-- Witness for C8 at the concrete inputs `(0,0,1)` and `(0,0,2)` (equal
x, y; both z nonnegative). -/
theorem pack_depends_only_on_z_sign_witness :
    pack ⟨0, 0, 1⟩ = pack ⟨0, 0, 2⟩ ∧
    pack ⟨0, 0, 1⟩ / 2 = pack ⟨0, 0, -1⟩ / 2 ∧
    pack ⟨0, 0, 1⟩ % 2 = 0 ∧ pack ⟨0, 0, -1⟩ % 2 = 1 :=
  pack_depends_only_on_z_sign ⟨0, 0, 1⟩ ⟨0, 0, 2⟩ rfl rfl
    (Or.inr ⟨by norm_num, by norm_num⟩)

/-- Definitional form of the x component of `unpack`. -/
theorem unpack_x_eq (p : ℕ) :
    (unpack p).x = map_sfnorm (((p >>> 16 : ℕ) : ℚ) / 65535) := rfl

/-- Definitional form of the y component of `unpack`. -/
theorem unpack_y_eq (p : ℕ) :
    (unpack p).y = map_sfnorm ((((p &&& 0xFFFF) >>> 1 : ℕ) : ℚ) / 32767) := rfl

/-- Definitional form of the z component of `unpack`. -/
theorem unpack_z_eq (p : ℕ) :
    (unpack p).z = if radicand p < 0 then none
      else some (Real.sqrt (radicand p) * ((if p &&& 0x01 = 1 then (-1 : ℚ) else 1) : ℚ)) := rfl

/-- Field extraction from a packed in-domain vector, stated on explicit
components. -/
theorem unpack_pack_fields (x y z : ℚ) (hx : |x| ≤ 1) (hy : |y| ≤ 1) :
    pack ⟨x, y, z⟩ >>> 16 = map_ftou16 (map_ufnorm x) ∧
    (pack ⟨x, y, z⟩ &&& 0xFFFF) >>> 1 = map_ftou15 (map_ufnorm y) ∧
    pack ⟨x, y, z⟩ &&& 0x01 = (if z < 0 then 1 else 0) := by
  obtain ⟨hux0, hux1⟩ := map_ufnorm_mem hx
  obtain ⟨huy0, huy1⟩ := map_ufnorm_mem hy
  have hux : map_ftou16 (map_ufnorm x) ≤ 65535 := quant16_le hux0 hux1
  have huy : map_ftou15 (map_ufnorm y) ≤ 32767 := map_ftou15_le huy0 huy1
  set a : ℕ := if z < 0 then 1 else 0 with hadef
  have ha : a ≤ 1 := by rw [hadef]; split <;> norm_num
  have hp := pack_mk_eq x y z hx hy
  rw [← hadef] at hp
  refine ⟨?_, ?_, ?_⟩
  · rw [Nat.shiftRight_eq_div_pow, hp]
    omega
  · rw [show (0xFFFF : ℕ) = 2 ^ 16 - 1 by norm_num, Nat.and_pow_two_sub_one_eq_mod,
      Nat.shiftRight_eq_div_pow, hp]
    omega
  · rw [show (0x01 : ℕ) = 2 ^ 1 - 1 by norm_num, Nat.and_pow_two_sub_one_eq_mod, hp]
    omega

/-- The radicand computed by `unpack` on a packed in-domain vector, in
terms of the quantized components. -/
theorem radicand_pack_mk (x y z : ℚ) (hx : |x| ≤ 1) (hy : |y| ≤ 1) :
    radicand (pack ⟨x, y, z⟩) =
      1 - (map_sfnorm (((map_ftou16 (map_ufnorm x) : ℕ) : ℚ) / 65535) *
             map_sfnorm (((map_ftou16 (map_ufnorm x) : ℕ) : ℚ) / 65535) +
           map_sfnorm (((map_ftou15 (map_ufnorm y) : ℕ) : ℚ) / 32767) *
             map_sfnorm (((map_ftou15 (map_ufnorm y) : ℕ) : ℚ) / 32767)) := by
  obtain ⟨hqx, hqy, -⟩ := unpack_pack_fields x y z hx hy
  rw [radicand, hqx, hqy]

/-- Quantization round-trip error of the 16-bit x path: at most one
quantization step `1/65535 = 2/(2·65535)`. -/
theorem sfnorm_ftou16_err {x : ℚ} (hx : |x| ≤ 1) :
    |map_sfnorm (((map_ftou16 (map_ufnorm x) : ℕ) : ℚ) / 65535) - x| ≤ 1 / 65535 := by
  obtain ⟨h0, h1⟩ := map_ufnorm_mem hx
  set u := map_ufnorm x with hu
  have hnn : (0 : ℤ) ≤ roundAway (u * 65535) :=
    roundAway_nonneg (mul_nonneg h0 (by norm_num))
  have hcast : ((map_ftou16 u : ℕ) : ℚ) = ((roundAway (u * 65535) : ℤ) : ℚ) := by
    rw [map_ftou16]
    exact_mod_cast congrArg (fun t : ℤ => ((t : ℚ))) (Int.toNat_of_nonneg hnn)
  have herr : |((roundAway (u * 65535) : ℤ) : ℚ) - u * 65535| ≤ 1 / 2 := by
    rw [roundAway_of_nonneg (mul_nonneg h0 (by norm_num)), abs_sub_comm]
    exact abs_sub_round _
  have hxu : x = u * 2 - 1 := by rw [hu, map_ufnorm]; ring
  rw [map_sfnorm, hcast, hxu]
  rw [abs_le] at herr ⊢
  constructor <;> [linarith [herr.1]; linarith [herr.2]]

/-- Quantization round-trip error of the 15-bit y path: at most one
quantization step `1/32767`. -/
theorem sfnorm_ftou15_err {y : ℚ} (hy : |y| ≤ 1) :
    |map_sfnorm (((map_ftou15 (map_ufnorm y) : ℕ) : ℚ) / 32767) - y| ≤ 1 / 32767 := by
  obtain ⟨h0, h1⟩ := map_ufnorm_mem hy
  set u := map_ufnorm y with hu
  have hnn : (0 : ℤ) ≤ roundAway (u * 32767) :=
    roundAway_nonneg (mul_nonneg h0 (by norm_num))
  have hcast : ((map_ftou15 u : ℕ) : ℚ) = ((roundAway (u * 32767) : ℤ) : ℚ) := by
    rw [map_ftou15_eq_toNat h0 h1]
    exact_mod_cast congrArg (fun t : ℤ => ((t : ℚ))) (Int.toNat_of_nonneg hnn)
  have herr : |((roundAway (u * 32767) : ℤ) : ℚ) - u * 32767| ≤ 1 / 2 := by
    rw [roundAway_of_nonneg (mul_nonneg h0 (by norm_num)), abs_sub_comm]
    exact abs_sub_round _
  have hyu : y = u * 2 - 1 := by rw [hu, map_ufnorm]; ring
  rw [map_sfnorm, hcast, hyu]
  rw [abs_le] at herr ⊢
  constructor <;> [linarith [herr.1]; linarith [herr.2]]

/-- Subadditivity of the square root along a difference. -/
theorem sqrt_sub_sqrt_le {a b : ℝ} (ha : 0 ≤ a) (hab : a ≤ b) :
    Real.sqrt b - Real.sqrt a ≤ Real.sqrt (b - a) := by
  have hba : (0 : ℝ) ≤ b - a := by linarith
  have hs : (0 : ℝ) ≤ Real.sqrt a + Real.sqrt (b - a) := by positivity
  have h2 : b ≤ (Real.sqrt a + Real.sqrt (b - a)) ^ 2 := by
    have e1 := Real.sq_sqrt ha
    have e2 := Real.sq_sqrt hba
    nlinarith [mul_nonneg (Real.sqrt_nonneg a) (Real.sqrt_nonneg (b - a))]
  have h1 : Real.sqrt b ≤ Real.sqrt a + Real.sqrt (b - a) := by
    calc Real.sqrt b ≤ Real.sqrt ((Real.sqrt a + Real.sqrt (b - a)) ^ 2) := Real.sqrt_le_sqrt h2
      _ = Real.sqrt a + Real.sqrt (b - a) := Real.sqrt_sq hs
  linarith

/-- The square-root map is 1/2-Hölder: `|√a − √b| ≤ √|a − b|`. -/
theorem abs_sqrt_sub_sqrt_le {a b : ℝ} (ha : 0 ≤ a) (hb : 0 ≤ b) :
    |Real.sqrt a - Real.sqrt b| ≤ Real.sqrt |a - b| := by
  rcases le_total a b with h | h
  · rw [abs_sub_comm, abs_of_nonneg (sub_nonneg.2 (Real.sqrt_le_sqrt h)),
      abs_sub_comm a b, abs_of_nonneg (sub_nonneg.2 h)]
    exact sqrt_sub_sqrt_le ha h
  · rw [abs_of_nonneg (sub_nonneg.2 (Real.sqrt_le_sqrt h)),
      abs_of_nonneg (sub_nonneg.2 h)]
    exact sqrt_sub_sqrt_le hb h

/-- Counterexample to C1: the unit vector `(3/5, 4/5, 0)` does not
round-trip within `ε = 0.005`.  Its x and y quantize to 52428 and 29490,
giving reconstructed components `(3/5, 26213/32767)`; the radicand
`1 - (fx² + fy²) = 786399/26841907225 ≈ 2.93e-5` exceeds `(0.005)² = 2.5e-5`,
so the reconstructed z is `√(radicand) > 0.005` while the true z is `0`. -/
theorem round_trip_within_eps_counterexample :
    ((3 : ℚ) / 5) ^ 2 + ((4 : ℚ) / 5) ^ 2 + (0 : ℚ) ^ 2 = 1 ∧
    ¬ vector_equals ⟨3 / 5, 4 / 5, 0⟩ (unpack (pack ⟨3 / 5, 4 / 5, 0⟩)) := by
  refine ⟨by norm_num, ?_⟩
  obtain ⟨hqx, hqy, hqa⟩ :=
    unpack_pack_fields (3 / 5) (4 / 5) 0 (by rw [abs_le]; constructor <;> norm_num)
      (by rw [abs_le]; constructor <;> norm_num)
  have e1 : map_ufnorm (3 / 5) = 4 / 5 := by rw [map_ufnorm]; norm_num
  have e2 : map_ufnorm (4 / 5) = 9 / 10 := by rw [map_ufnorm]; norm_num
  have e3 : map_ftou16 (4 / 5) = 52428 := by
    rw [map_ftou16, roundAway_eval (by norm_num)]
    norm_num
    rfl
  have e4 : map_ftou15 (9 / 10) = 29490 := by
    rw [map_ftou15_eq_toNat (by norm_num) (by norm_num), roundAway_eval (by norm_num)]
    norm_num
    rfl
  rw [e1, e3] at hqx
  rw [e2, e4] at hqy
  have hge : 1 / 40000 ≤ radicand (pack ⟨3 / 5, 4 / 5, 0⟩) := by
    rw [radicand, hqx, hqy]
    simp only [map_sfnorm]
    norm_num
  have hnn : ¬ radicand (pack ⟨3 / 5, 4 / 5, 0⟩) < 0 :=
    not_lt.2 (le_trans (by norm_num) hge)
  have hfa : pack ⟨3 / 5, 4 / 5, 0⟩ &&& 0x01 = 0 := by
    rw [hqa, if_neg (show ¬((0 : ℚ) < 0) by norm_num)]
  have hzsome : (unpack (pack ⟨3 / 5, 4 / 5, 0⟩)).z =
      some (Real.sqrt (radicand (pack ⟨3 / 5, 4 / 5, 0⟩)) * ((1 : ℚ) : ℝ)) := by
    rw [unpack_z_eq, if_neg hnn, hfa, if_neg (show ¬((0 : ℕ) = 1) by norm_num)]
  intro hveq
  obtain ⟨-, -, hz⟩ := hveq
  rw [hzsome] at hz
  have hz' : |((0 : ℚ) : ℝ) - Real.sqrt (radicand (pack ⟨3 / 5, 4 / 5, 0⟩)) * ((1 : ℚ) : ℝ)| <
      5 / 1000 := hz
  have hsq : (1 : ℝ) / 200 ≤ Real.sqrt (radicand (pack ⟨3 / 5, 4 / 5, 0⟩)) := by
    rw [Real.le_sqrt' (by norm_num : (0 : ℝ) < 1 / 200)]
    calc ((1 : ℝ) / 200) ^ 2 = ((1 / 40000 : ℚ) : ℝ) := by norm_num
      _ ≤ _ := by exact_mod_cast hge
  rw [Rat.cast_zero, Rat.cast_one, mul_one, zero_sub, abs_neg,
    abs_of_nonneg (Real.sqrt_nonneg _)] at hz'
  linarith

/-- C1 (amended): for every unit vector, the x and y components of the
round-trip stay within `ε = 0.005`; the z component, whenever it is a real
number (no NaN), stays within `0.01` — quantization error is amplified by
the square-root reconstruction near the equator, so `0.005` is not
achievable for z, but `0.01` is. -/
theorem round_trip_amended (x y z : ℚ) (h : x ^ 2 + y ^ 2 + z ^ 2 = 1) :
    float_eq x (unpack (pack ⟨x, y, z⟩)).x ∧
    float_eq y (unpack (pack ⟨x, y, z⟩)).y ∧
    ∀ r : ℝ, (unpack (pack ⟨x, y, z⟩)).z = some r → |(z : ℝ) - r| < 1 / 100 := by
  have hx : |x| ≤ 1 := abs_le.2
    ⟨by nlinarith [sq_nonneg (x + 1), sq_nonneg y, sq_nonneg z],
     by nlinarith [sq_nonneg (x - 1), sq_nonneg y, sq_nonneg z]⟩
  have hy : |y| ≤ 1 := abs_le.2
    ⟨by nlinarith [sq_nonneg (y + 1), sq_nonneg x, sq_nonneg z],
     by nlinarith [sq_nonneg (y - 1), sq_nonneg x, sq_nonneg z]⟩
  obtain ⟨hqx, hqy, hqa⟩ := unpack_pack_fields x y z hx hy
  have errX := sfnorm_ftou16_err hx
  have errY := sfnorm_ftou15_err hy
  set X := map_sfnorm (((map_ftou16 (map_ufnorm x) : ℕ) : ℚ) / 65535) with hXdef
  set Y := map_sfnorm (((map_ftou15 (map_ufnorm y) : ℕ) : ℚ) / 32767) with hYdef
  have hXx : (unpack (pack ⟨x, y, z⟩)).x = X := by
    rw [unpack_x_eq, hqx]
  have hYy : (unpack (pack ⟨x, y, z⟩)).y = Y := by
    rw [unpack_y_eq, hqy]
  refine ⟨?_, ?_, ?_⟩
  · rw [hXx]
    show |x - X| < 5 / 1000
    calc |x - X| = |X - x| := abs_sub_comm x X
      _ ≤ 1 / 65535 := errX
      _ < 5 / 1000 := by norm_num
  · rw [hYy]
    show |y - Y| < 5 / 1000
    calc |y - Y| = |Y - y| := abs_sub_comm y Y
      _ ≤ 1 / 32767 := errY
      _ < 5 / 1000 := by norm_num
  · intro r hr
    have hXb : |X| ≤ 1 := by
      obtain ⟨h0, h1⟩ := map_ufnorm_mem hx
      have hle := quant16_le h0 h1
      have c0 : (0 : ℚ) ≤ ((map_ftou16 (map_ufnorm x) : ℕ) : ℚ) / 65535 := by positivity
      have c1 : ((map_ftou16 (map_ufnorm x) : ℕ) : ℚ) / 65535 ≤ 1 := by
        rw [div_le_one (by norm_num)]
        exact_mod_cast quant16_le h0 h1
      obtain ⟨d0, d1⟩ := map_sfnorm_mem c0 c1
      exact abs_le.2 ⟨d0, d1⟩
    have hYb : |Y| ≤ 1 := by
      obtain ⟨h0, h1⟩ := map_ufnorm_mem hy
      have c0 : (0 : ℚ) ≤ ((map_ftou15 (map_ufnorm y) : ℕ) : ℚ) / 32767 := by positivity
      have c1 : ((map_ftou15 (map_ufnorm y) : ℕ) : ℚ) / 32767 ≤ 1 := by
        rw [div_le_one (by norm_num)]
        exact_mod_cast map_ftou15_le h0 h1
      obtain ⟨d0, d1⟩ := map_sfnorm_mem c0 c1
      exact abs_le.2 ⟨d0, d1⟩
    have hrad : radicand (pack ⟨x, y, z⟩) = 1 - (X * X + Y * Y) :=
      radicand_pack_mk x y z hx hy
    have hxa := abs_le.1 hx
    have hXa := abs_le.1 hXb
    have hya := abs_le.1 hy
    have hYa := abs_le.1 hYb
    have e1 : |x * x - X * X| ≤ 2 / 65535 := by
      have hfac : x * x - X * X = (x - X) * (x + X) := by ring
      rw [hfac, abs_mul]
      have h1 : |x - X| ≤ 1 / 65535 := by
        rw [abs_sub_comm]
        exact errX
      have h2 : |x + X| ≤ 2 := by
        calc |x + X| ≤ |x| + |X| := abs_add x X
          _ ≤ 2 := by linarith
      calc |x - X| * |x + X| ≤ 1 / 65535 * 2 :=
            mul_le_mul h1 h2 (abs_nonneg _) (by norm_num)
        _ = 2 / 65535 := by norm_num
    have e2 : |y * y - Y * Y| ≤ 2 / 32767 := by
      have hfac : y * y - Y * Y = (y - Y) * (y + Y) := by ring
      rw [hfac, abs_mul]
      have h1 : |y - Y| ≤ 1 / 32767 := by
        rw [abs_sub_comm]
        exact errY
      have h2 : |y + Y| ≤ 2 := by
        calc |y + Y| ≤ |y| + |Y| := abs_add y Y
          _ ≤ 2 := by linarith
      calc |y - Y| * |y + Y| ≤ 1 / 32767 * 2 :=
            mul_le_mul h1 h2 (abs_nonneg _) (by norm_num)
        _ = 2 / 32767 := by norm_num
    have hradb : |radicand (pack ⟨x, y, z⟩) - z ^ 2| < 1 / 10000 := by
      have hz2 : z ^ 2 = 1 - (x ^ 2 + y ^ 2) := by linarith
      rw [hrad, hz2]
      have hring : 1 - (X * X + Y * Y) - (1 - (x ^ 2 + y ^ 2)) =
          (x * x - X * X) + (y * y - Y * Y) := by ring
      rw [hring]
      calc |(x * x - X * X) + (y * y - Y * Y)| ≤ |x * x - X * X| + |y * y - Y * Y| :=
            abs_add _ _
        _ ≤ 2 / 65535 + 2 / 32767 := add_le_add e1 e2
        _ < 1 / 10000 := by norm_num
    have hnn : ¬ radicand (pack ⟨x, y, z⟩) < 0 := by
      intro hneg
      rw [unpack_z_eq, if_pos hneg] at hr
      exact Option.noConfusion hr
    rw [unpack_z_eq, if_neg hnn] at hr
    have hrval := (Option.some.inj hr).symm
    have hcast_nn : (0 : ℝ) ≤ ((radicand (pack ⟨x, y, z⟩) : ℚ) : ℝ) := by
      exact_mod_cast not_lt.1 hnn
    have key : |Real.sqrt ((radicand (pack ⟨x, y, z⟩) : ℚ) : ℝ) - Real.sqrt ((z : ℝ) ^ 2)| ≤
        Real.sqrt |((radicand (pack ⟨x, y, z⟩) : ℚ) : ℝ) - (z : ℝ) ^ 2| :=
      abs_sqrt_sub_sqrt_le hcast_nn (sq_nonneg _)
    have hlt : |((radicand (pack ⟨x, y, z⟩) : ℚ) : ℝ) - (z : ℝ) ^ 2| < 1 / 10000 := by
      rw [show ((radicand (pack ⟨x, y, z⟩) : ℚ) : ℝ) - (z : ℝ) ^ 2 =
        ((radicand (pack ⟨x, y, z⟩) - z ^ 2 : ℚ) : ℝ) by push_cast; ring]
      rw [← Rat.cast_abs, show ((1 : ℝ) / 10000) = ((1 / 10000 : ℚ) : ℝ) by norm_num]
      exact Rat.cast_lt.2 hradb
    have hsqrt_lt : Real.sqrt |((radicand (pack ⟨x, y, z⟩) : ℚ) : ℝ) - (z : ℝ) ^ 2| < 1 / 100 := by
      rw [Real.sqrt_lt' (by norm_num : (0 : ℝ) < 1 / 100)]
      calc |((radicand (pack ⟨x, y, z⟩) : ℚ) : ℝ) - (z : ℝ) ^ 2| < 1 / 10000 := hlt
        _ ≤ (1 / 100) ^ 2 := by norm_num
    by_cases hzs : z < 0
    · have hfa : pack ⟨x, y, z⟩ &&& 0x01 = 1 := by rw [hqa, if_pos hzs]
      rw [hfa, if_pos rfl] at hrval
      have hzabs : Real.sqrt ((z : ℝ) ^ 2) = -(z : ℝ) := by
        rw [Real.sqrt_sq_eq_abs, abs_of_neg (by exact_mod_cast hzs)]
      rw [hrval]
      have hflip : (z : ℝ) - Real.sqrt ((radicand (pack ⟨x, y, z⟩) : ℚ) : ℝ) * ((-1 : ℚ) : ℝ) =
          Real.sqrt ((radicand (pack ⟨x, y, z⟩) : ℚ) : ℝ) - Real.sqrt ((z : ℝ) ^ 2) := by
        rw [hzabs]
        push_cast
        ring
      rw [hflip]
      calc |Real.sqrt ((radicand (pack ⟨x, y, z⟩) : ℚ) : ℝ) - Real.sqrt ((z : ℝ) ^ 2)| ≤
            Real.sqrt |((radicand (pack ⟨x, y, z⟩) : ℚ) : ℝ) - (z : ℝ) ^ 2| := key
        _ < 1 / 100 := hsqrt_lt
    · have hfa : pack ⟨x, y, z⟩ &&& 0x01 = 0 := by rw [hqa, if_neg hzs]
      rw [hfa, if_neg (show ¬((0 : ℕ) = 1) by norm_num)] at hrval
      have hzabs : Real.sqrt ((z : ℝ) ^ 2) = (z : ℝ) := by
        rw [Real.sqrt_sq_eq_abs, abs_of_nonneg (by exact_mod_cast not_lt.1 hzs)]
      rw [hrval]
      have hflip : (z : ℝ) - Real.sqrt ((radicand (pack ⟨x, y, z⟩) : ℚ) : ℝ) * ((1 : ℚ) : ℝ) =
          -(Real.sqrt ((radicand (pack ⟨x, y, z⟩) : ℚ) : ℝ) - Real.sqrt ((z : ℝ) ^ 2)) := by
        rw [hzabs]
        push_cast
        ring
      rw [hflip, abs_neg]
      calc |Real.sqrt ((radicand (pack ⟨x, y, z⟩) : ℚ) : ℝ) - Real.sqrt ((z : ℝ) ^ 2)| ≤
            Real.sqrt |((radicand (pack ⟨x, y, z⟩) : ℚ) : ℝ) - (z : ℝ) ^ 2| := key
        _ < 1 / 100 := hsqrt_lt

/-- Witness for the amended C1 at the concrete unit vector `(3/5, 4/5, 0)`. -/
theorem round_trip_amended_witness :
    ((3 : ℚ) / 5) ^ 2 + ((4 : ℚ) / 5) ^ 2 + (0 : ℚ) ^ 2 = 1 ∧
    (float_eq (3 / 5) (unpack (pack ⟨3 / 5, 4 / 5, 0⟩)).x ∧
     float_eq (4 / 5) (unpack (pack ⟨3 / 5, 4 / 5, 0⟩)).y ∧
     ∀ r : ℝ, (unpack (pack ⟨3 / 5, 4 / 5, 0⟩)).z = some r → |((0 : ℚ) : ℝ) - r| < 1 / 100) :=
  ⟨by norm_num, round_trip_amended (3 / 5) (4 / 5) 0 (by norm_num)⟩

end NormalPack
